import Mathlib

/-!
Verification of the chord-counting core of the ultimate-guitar-scraper
repository (cmd/count_chords.go).

Go strings are modelled as lists of characters (the corpus is ASCII, so
byte indexing and character indexing in the Go source agree).  Each Go
helper (strings.TrimSpace, strings.Split, strings.ReplaceAll,
strings.HasSuffix, strings.LastIndex, strings.Join) is embedded as an
executable Lean function with the same behaviour, and the two regular
expressions are embedded by the token grammar they denote together with
the leftmost-first matching discipline of Go's regexp package.
-/

abbrev GoStr := List Char

/-- The whitespace set trimmed by strings.TrimSpace (unicode.IsSpace,
restricted to the Latin-1 range; the corpus is ASCII). -/
def isGoSpace (c : Char) : Bool :=
  c = ' ' || c = '\t' || c = '\n' || c = Char.ofNat 11 || c = Char.ofNat 12 ||
  c = '\r' || c = Char.ofNat 0x85 || c = Char.ofNat 0xA0

/-- strings.TrimSpace: drop leading and trailing whitespace. -/
def trimSpace (s : GoStr) : GoStr :=
  ((s.dropWhile isGoSpace).reverse.dropWhile isGoSpace).reverse

/-- strings.Split with a one-character separator: all the
separator-delimited fields, empty fields kept. -/
def splitOnChar (sep : Char) : GoStr → List GoStr
  | [] => [[]]
  | c :: t =>
    if c = sep then [] :: splitOnChar sep t
    else
      match splitOnChar sep t with
      | [] => [[c]]
      | p :: ps => (c :: p) :: ps

/-- strings.Join with a one-character separator. -/
def joinWith (sep : Char) : List GoStr → GoStr
  | [] => []
  | [l] => l
  | l :: l' :: ls => l ++ sep :: joinWith sep (l' :: ls)

/-- strings.ReplaceAll(chord, "M", "m") from normalizeChordPart. -/
def replaceM (s : GoStr) : GoStr :=
  s.map fun c => if c = 'M' then 'm' else c

/-- Search downward for the start of the last occurrence of pat in s,
beginning at position i (helper for strings.LastIndex). -/
def lastIndexFrom (s pat : GoStr) : Nat → Option Nat
  | 0 => if pat.isPrefixOf s then some 0 else none
  | i + 1 =>
    if pat.isPrefixOf (s.drop (i + 1)) then some (i + 1)
    else lastIndexFrom s pat i

/-- strings.LastIndex(s, pat): index of the last occurrence of pat in s. -/
def lastIndex (s pat : GoStr) : Option Nat :=
  lastIndexFrom s pat s.length

/-- The suffix list of normalizeChordPart, in source order. -/
def goSuffixes : List GoStr :=
  ["Maj", "Maj7", "m7", "m9", "m11", "m13", "add9", "sus4", "dim", "dim7",
   "aug", "aug7", "7", "9", "11", "13"].map String.data

/-- The for-loop of normalizeChordPart: the first listed suffix that ends
the string is re-anchored via chord[:LastIndex(chord, suffix)] + suffix,
then the loop breaks. -/
def applySuffixStep (chord : GoStr) : GoStr :=
  match goSuffixes.find? (fun suf => suf.isSuffixOf chord) with
  | some suf =>
    match lastIndex chord suf with
    | some i => chord.take i ++ suf
    | none => chord
  | none => chord

/-- normalizeChordPart from count_chords.go: uppercase the first
character, replace every M by m, then the suffix loop. -/
def normalizeChordPart (chord : GoStr) : GoStr :=
  match chord with
  | [] => []
  | c :: rest => applySuffixStep (replaceM (c.toUpper :: rest))

/-- normalizeChord from count_chords.go: trim, split at the slashes into
chord part and inversion part (fields beyond the second are unused),
normalize each part, rejoin when the raw inversion part is nonempty. -/
def normalizeChord (chord : GoStr) : GoStr :=
  let t := trimSpace chord
  if t = [] then []
  else if '/' ∈ t then
    let parts := splitOnChar '/' t
    let chordPart := normalizeChordPart (parts.getD 0 [])
    let inversionPart := parts.getD 1 []
    if inversionPart = [] then chordPart
    else chordPart ++ '/' :: normalizeChordPart inversionPart
  else normalizeChordPart t

/-!
The chord regular expression of count_chords.go:

  \b[A-G](?:#|b)?(?:m|maj7|add9|sus4|dim|aug|7|9|11|13|maj|m7|m9|aug7|dim7)?(?:/[A-G](?:#|b)?)?\b

FindAllString with Go's leftmost-first (Perl-order) semantics.  A match
is a token: root letter, optional accidental, optional suffix from the
alternation, optional bass part.  At a given start position Go's engine
tries the alternatives in backtracking order (accidental choice first,
then suffix choice, then bass choice, each preferring presence and
earlier alternatives) and returns the first combination whose text is
present verbatim and is followed by a word boundary.
-/

/-- A word character for the regexp word-boundary assertion. -/
def wordChar (c : Char) : Bool := c.isAlphanum || c = '_'

/-- Is the character at position i of the line a word character
(out-of-range counts as non-word)? -/
def wordAt (l : GoStr) (i : Nat) : Bool :=
  match l.get? i with
  | some c => wordChar c
  | none => false

/-- The word-boundary assertion at position i. -/
def boundaryAt (l : GoStr) (i : Nat) : Bool :=
  (match i with
   | 0 => false
   | j + 1 => wordAt l j) != wordAt l i

/-- The character class [A-G]. -/
def rootChars : List Char := ['A', 'B', 'C', 'D', 'E', 'F', 'G']

def isRoot (c : Char) : Bool := decide (c ∈ rootChars)

/-- One candidate match of the chord regular expression. -/
structure ChordToken where
  root : Char
  acc : Option Char
  suf : Option GoStr
  bass : Option (Char × Option Char)
  deriving DecidableEq, Repr

def accStr : Option Char → GoStr
  | none => []
  | some c => [c]

def sufStr : Option GoStr → GoStr
  | none => []
  | some s => s

def bassStr : Option (Char × Option Char) → GoStr
  | none => []
  | some (r, a) => '/' :: r :: accStr a

/-- The text a candidate stands for. -/
def renderTok (t : ChordToken) : GoStr :=
  t.root :: accStr t.acc ++ sufStr t.suf ++ bassStr t.bass

/-- (?:#|b)? alternatives in preference order: greedy, # before b. -/
def accOpts : List (Option Char) := [some '#', some 'b', none]

/-- The suffix alternation in source order, presence preferred. -/
def sufOpts : List (Option GoStr) :=
  (["m", "maj7", "add9", "sus4", "dim", "aug", "7", "9", "11", "13",
    "maj", "m7", "m9", "aug7", "dim7"].map String.data).map some ++ [none]

/-- (?:/[A-G](?:#|b)?)? alternatives in preference order (the bass root
alternatives are mutually exclusive on any fixed text, so their relative
order is immaterial). -/
def bassOpts : List (Option (Char × Option Char)) :=
  (rootChars.flatMap fun r => accOpts.map fun a => some (r, a)) ++ [none]

/-- All candidates at a position whose root letter is r, in Go's
backtracking preference order (bass varies fastest, accidental slowest). -/
def candidates (r : Char) : List ChordToken :=
  accOpts.flatMap fun a =>
    sufOpts.flatMap fun s =>
      bassOpts.map fun b => ⟨r, a, s, b⟩

/-- The leftmost-first match of the chord regular expression starting
exactly at position i, if any. -/
def matchAt (l : GoStr) (i : Nat) : Option ChordToken :=
  match l.get? i with
  | none => none
  | some r =>
    if isRoot r && boundaryAt l i then
      (candidates r).find? fun t =>
        (renderTok t).isPrefixOf (l.drop i) &&
        boundaryAt l (i + (renderTok t).length)
    else none

/-- Successive non-overlapping leftmost matches from position i on
(FindAllString's scan); fuel bounds the recursion. -/
def scanFrom (l : GoStr) : Nat → Nat → List ChordToken
  | _, 0 => []
  | i, fuel + 1 =>
    if i < l.length then
      match matchAt l i with
      | some t => t :: scanFrom l (i + (renderTok t).length) fuel
      | none => scanFrom l (i + 1) fuel
    else []

/-- chordRegex.FindAllString(line, -1). -/
def findAllChords (l : GoStr) : List GoStr :=
  (scanFrom l 0 (l.length + 1)).map renderTok

/-- The metadata test of the scan loop: strings.HasPrefix(line, "{") or
strings.HasPrefix(line, "["). -/
def isMetadata (line : GoStr) : Bool :=
  match line with
  | [] => false
  | c :: _ => c = '{' || c = '['

/-- tablatureRegex ^[eBgdAE]\| . -/
def isTablature (line : GoStr) : Bool :=
  match line with
  | c1 :: c2 :: _ => decide (c1 ∈ ['e', 'B', 'g', 'd', 'A', 'E']) && c2 = '|'
  | _ => false

/-- The chord tokens the scan loop extracts from one raw line: none for
a skipped (metadata or tablature) line, otherwise all regex matches. -/
def lineTokens (line : GoStr) : List GoStr :=
  if isMetadata line || isTablature line then [] else findAllChords line

/-!
Aggregation and reporting.  The Go map chordCounts is modelled as an
association list in first-insertion order; a Go map determines its
entries but not an iteration order, so everything proved about the
rendered report is quantified over an arbitrary permutation of the
entries.  sort.Slice with the comparator Count > Count is modelled by
its postcondition: the output is a permutation of the input ordered by
non-increasing count.
-/

abbrev Table := List (GoStr × Int)

/-- One execution of chordCounts[key]++ on the entry list. -/
def bump : Table → GoStr → Table
  | [], k => [(k, 1)]
  | (k', v) :: rest, k =>
    if k' = k then (k', v + 1) :: rest else (k', v) :: bump rest k

/-- The body of the match loop: an empty normalized chord is discarded,
any other key is incremented. -/
def record (m : Table) (key : GoStr) : Table :=
  if key = [] then m else bump m key

/-- Go map lookup (the zero value 0 for an absent key). -/
def lookupD (m : Table) (k : GoStr) : Int :=
  match m with
  | [] => 0
  | (k', v) :: rest => if k' = k then v else lookupD rest k

/-- Processing of one raw line of a .crd file by the scan loop. -/
def processLine (m : Table) (line : GoStr) : Table :=
  (lineTokens line).foldl (fun acc tok => record acc (normalizeChord tok)) m

/-- The whole corpus scan over the given lines. -/
def countLines (lines : List GoStr) : Table :=
  lines.foldl processLine []

/-- One decimal digit. -/
def digitChar (d : Nat) : Char :=
  if d = 0 then '0' else if d = 1 then '1' else if d = 2 then '2'
  else if d = 3 then '3' else if d = 4 then '4' else if d = 5 then '5'
  else if d = 6 then '6' else if d = 7 then '7' else if d = 8 then '8'
  else if d = 9 then '9' else '?'

def natStrCore : Nat → Nat → GoStr → GoStr
  | 0, _, acc => acc
  | fuel + 1, n, acc =>
    if n < 10 then digitChar n :: acc
    else natStrCore fuel (n / 10) (digitChar (n % 10) :: acc)

def natStr (n : Nat) : GoStr := natStrCore (n + 1) n []

/-- fmt %d on a Go int. -/
def intStr : Int → GoStr
  | Int.ofNat n => natStr n
  | Int.negSucc n => '-' :: natStr (n + 1)

/-- fmt.Sprintf with the report line layout. -/
def fmtEntry (e : GoStr × Int) : GoStr :=
  e.1 ++ ':' :: ' ' :: intStr e.2

/-- The fixed two header lines of the report. -/
def headerLines : List GoStr :=
  ["Chord Usage Statistics".data, "======================".data]

/-- outputLines of CountChordsAction, given the sorted entries. -/
def outputLinesOf (es : Table) : List GoStr :=
  headerLines ++ es.map fmtEntry

/-- strings.Join(outputLines, newline): the written report text. -/
def renderReport (es : Table) : GoStr :=
  joinWith '\n' (outputLinesOf es)

/-- The sort.Slice postcondition for the comparator
frequencies[i].Count > frequencies[j].Count: counts non-increasing. -/
def SortedDesc (es : Table) : Prop :=
  es.Pairwise fun a b => b.2 ≤ a.2

instance : DecidablePred SortedDesc := fun es =>
  List.instDecidablePairwise es

/-- out is a possible rendered report for the given table: the map
entries come out of range in an arbitrary order, are sorted by
non-increasing count, and are rendered under the header. -/
def ValidReport (table : Table) (out : GoStr) : Prop :=
  ∃ es, es.Perm table ∧ SortedDesc es ∧ out = renderReport es

/-! Helper lemmas. -/

theorem isPrefixOf_length_le {p l : GoStr} (h : p.isPrefixOf l = true) :
    p.length ≤ l.length :=
  (List.isPrefixOf_iff_prefix.mp h).length_le

theorem lastIndexFrom_eq (t suf : GoStr) (n : Nat) (h1 : t.length ≤ n)
    (h2 : n ≤ t.length + suf.length) :
    lastIndexFrom (t ++ suf) suf n = some t.length := by
  induction n with
  | zero =>
    have ht : t.length = 0 := Nat.le_zero.mp h1
    have ht' : t = [] := List.length_eq_zero.mp ht
    subst ht'
    simp [lastIndexFrom, List.isPrefixOf_iff_prefix.mpr (List.prefix_refl suf)]
  | succ n ih =>
    rcases Nat.lt_or_ge n t.length with hlt | hge
    · have he : t.length = n + 1 := Nat.le_antisymm h1 hlt
      rw [lastIndexFrom, ← he, List.drop_left,
        List.isPrefixOf_iff_prefix.mpr (List.prefix_refl suf), if_pos rfl, he]
    · have hfail : suf.isPrefixOf ((t ++ suf).drop (n + 1)) = false := by
        cases hc : suf.isPrefixOf ((t ++ suf).drop (n + 1)) with
        | false => rfl
        | true =>
          have hlen := isPrefixOf_length_le hc
          rw [List.length_drop, List.length_append] at hlen
          omega
      rw [lastIndexFrom, hfail]
      simp only [Bool.false_eq_true, if_false]
      exact ih hge (Nat.le_of_succ_le h2)

theorem lastIndex_suffix (t suf : GoStr) :
    lastIndex (t ++ suf) suf = some t.length := by
  unfold lastIndex
  exact lastIndexFrom_eq t suf (t ++ suf).length
    (by simp) (by simp [List.length_append])

/-- The suffix loop of normalizeChordPart never changes the string: when
the string ends with a listed suffix, the last occurrence of that suffix
is exactly its trailing occurrence, so chord[:index] + suffix rebuilds
chord unchanged. -/
theorem applySuffixStep_eq_self (chord : GoStr) :
    applySuffixStep chord = chord := by
  unfold applySuffixStep
  cases hf : goSuffixes.find? (fun suf => suf.isSuffixOf chord) with
  | none => rfl
  | some suf =>
    have hs0 := List.find?_some hf
    have hs : suf.isSuffixOf chord = true := hs0
    obtain ⟨t, rfl⟩ : ∃ t, t ++ suf = chord :=
      (List.isSuffixOf_iff_suffix.mp hs)
    simp only [lastIndex_suffix, List.take_left]

theorem dropWhile_eq_self_of_none {p : Char → Bool} {s : GoStr}
    (h : ∀ c ∈ s, p c = false) : s.dropWhile p = s := by
  cases s with
  | nil => rfl
  | cons c t =>
    rw [List.dropWhile_cons, h c (List.mem_cons_self c t)]
    simp

theorem trimSpace_eq_self {s : GoStr} (h : ∀ c ∈ s, isGoSpace c = false) :
    trimSpace s = s := by
  unfold trimSpace
  rw [dropWhile_eq_self_of_none h,
    dropWhile_eq_self_of_none (fun c hc => h c (List.mem_reverse.mp hc)),
    List.reverse_reverse]

theorem replaceM_eq_self {s : GoStr} (h : ∀ c ∈ s, c ≠ 'M') :
    replaceM s = s := by
  unfold replaceM
  have : ∀ c ∈ s, (if c = 'M' then 'm' else c) = id c := by
    intro c hc
    simp [h c hc]
  rw [List.map_congr_left this, List.map_id]

/-- normalizeChordPart fixes any nonempty string whose first character
is already uppercase and which contains no uppercase M. -/
theorem normalizeChordPart_fixed {c : Char} {rest : GoStr}
    (hc : c.toUpper = c) (hM : ∀ x ∈ c :: rest, x ≠ 'M') :
    normalizeChordPart (c :: rest) = c :: rest := by
  show applySuffixStep (replaceM (c.toUpper :: rest)) = c :: rest
  rw [hc, replaceM_eq_self hM, applySuffixStep_eq_self]

theorem splitOnChar_no_sep {sep : Char} {s : GoStr} (h : sep ∉ s) :
    splitOnChar sep s = [s] := by
  induction s with
  | nil => rfl
  | cons c t ih =>
    have hc : ¬(c = sep) := fun he => h (he ▸ List.mem_cons_self c t)
    have ht : sep ∉ t := fun hm => h (List.mem_cons_of_mem c hm)
    rw [splitOnChar, if_neg hc, ih ht]

theorem splitOnChar_append {sep : Char} {a : GoStr} (r : GoStr)
    (h : sep ∉ a) :
    splitOnChar sep (a ++ sep :: r) = a :: splitOnChar sep r := by
  induction a with
  | nil => simp [splitOnChar]
  | cons c t ih =>
    have hc : ¬(c = sep) := fun he => h (he ▸ List.mem_cons_self c t)
    have ht : sep ∉ t := fun hm => h (List.mem_cons_of_mem c hm)
    rw [List.cons_append, splitOnChar, if_neg hc, ih ht]

theorem splitOnChar_ne_nil {sep : Char} {s : GoStr} :
    splitOnChar sep s ≠ [] := by
  cases s with
  | nil => simp [splitOnChar]
  | cons c t =>
    rw [splitOnChar]
    split
    · simp
    · split
      · simp
      · simp

/-- strings.Split followed by strings.Join is the identity on fields
that avoid the separator. -/
theorem splitOnChar_joinWith {sep : Char} {ls : List GoStr}
    (hne : ls ≠ []) (h : ∀ l ∈ ls, sep ∉ l) :
    splitOnChar sep (joinWith sep ls) = ls := by
  induction ls with
  | nil => exact absurd rfl hne
  | cons l ls ih =>
    cases ls with
    | nil =>
      rw [joinWith, splitOnChar_no_sep (h l (List.mem_cons_self l []))]
    | cons l' ls' =>
      rw [joinWith, splitOnChar_append _ (h l (List.mem_cons_self l _)),
        ih (by simp) (fun x hx => h x (List.mem_cons_of_mem l hx))]

theorem normalizeChord_no_slash {s : GoStr} (h : '/' ∉ s)
    (hs : trimSpace s = s) (hne : s ≠ []) :
    normalizeChord s = normalizeChordPart s := by
  simp only [normalizeChord, hs, if_neg hne, if_neg h]

/-- normalizeChord on a string with a slash: the text before the first
slash is the chord part, the following field the inversion part, and
every later field is ignored. -/
theorem normalizeChord_slash_eq {a r : GoStr} (ha : '/' ∉ a)
    (hs : trimSpace (a ++ '/' :: r) = a ++ '/' :: r) :
    normalizeChord (a ++ '/' :: r) =
      if (splitOnChar '/' r).getD 0 [] = [] then normalizeChordPart a
      else normalizeChordPart a ++
        '/' :: normalizeChordPart ((splitOnChar '/' r).getD 0 []) := by
  have hne : a ++ '/' :: r ≠ [] := by simp
  have hmem : '/' ∈ a ++ '/' :: r := by simp
  simp only [normalizeChord, hs, if_neg hne, if_pos hmem,
    splitOnChar_append r ha]
  rfl

set_option maxRecDepth 100000

/-- C10: only the first two slash-separated fields of a token contribute
to the normalized result — a third field is silently dropped — and a
token ending in a single trailing slash normalizes to the chord part
alone; in particular C/E/G normalizes to C/E and C/ to C. -/
theorem normalizeChord_uses_first_two_fields :
    (∀ a b c : GoStr, '/' ∉ a → '/' ∉ b → b ≠ [] →
      trimSpace (a ++ '/' :: (b ++ '/' :: c)) = a ++ '/' :: (b ++ '/' :: c) →
      normalizeChord (a ++ '/' :: (b ++ '/' :: c)) =
        normalizeChordPart a ++ '/' :: normalizeChordPart b)
  ∧ (∀ a : GoStr, '/' ∉ a →
      trimSpace (a ++ ['/']) = a ++ ['/'] →
      normalizeChord (a ++ ['/']) = normalizeChordPart a)
  ∧ normalizeChord "C/E/G".data = "C/E".data
  ∧ normalizeChord "C/".data = "C".data := by
  refine ⟨?_, ?_, by decide, by decide⟩
  · intro a b c ha hb hbne hs
    rw [normalizeChord_slash_eq ha hs, splitOnChar_append c hb]
    simp only [List.getD, List.get?_cons_zero, Option.getD_some]
    rw [if_neg hbne]
  · intro a ha hs
    rw [normalizeChord_slash_eq ha hs]
    simp [splitOnChar]

/-- C10 witness: the general statement instantiated at C/E/G. -/
theorem normalizeChord_uses_first_two_fields_witness :
    normalizeChord ("C".data ++ '/' :: ("E".data ++ '/' :: "G".data)) =
      normalizeChordPart "C".data ++ '/' :: normalizeChordPart "E".data :=
  normalizeChord_uses_first_two_fields.1 "C".data "E".data "G".data
    (by decide) (by decide) (by decide) (by decide)

/-- C1 (code bug): the tablature pattern [eBgdAE] uses lowercase g and d,
so a standard tablature staff line for the G or D string — uppercase
letter followed by a bar — is not skipped and yields a spurious chord
token, while the lowercase-e staff line is skipped as the claim states. -/
theorem tablature_skip_misses_upper_D_G :
    isTablature "D|--3--2--0--|".data = false
  ∧ isTablature "G|--3--2--0--|".data = false
  ∧ lineTokens "D|--3--2--0--|".data = ["D".data]
  ∧ lineTokens "G|--3--2--0--|".data = ["G".data]
  ∧ isTablature "e|--3--2--0--|".data = true
  ∧ lineTokens "e|--3--2--0--|".data = []
  ∧ lineTokens "A|--3--2--0--|".data = []
  ∧ lineTokens "E|--3--2--0--|".data = []
  ∧ lineTokens "B|--3--2--0--|".data = [] := by
  refine ⟨by decide, by decide, by decide, by decide, by decide,
    by decide, by decide, by decide, by decide⟩

/-- C2 counterexample: the canonicalizer does not truncate a token with
a stray character after a recognized suffix; C7x stays C7x instead of
being cut back to C7. -/
theorem normalizeChord_c7x_not_truncated :
    normalizeChord "C7x".data = "C7x".data
  ∧ normalizeChord "C7x".data ≠ "C7".data := by
  constructor
  · decide
  · decide

/-- C2 amended: the canonicalizer keeps stray trailing characters.  The
suffix re-anchoring step is the identity on every string: the loop only
fires when the string already ends with the matched suffix, and then
chord[:LastIndex(chord, suffix)] + suffix rebuilds the string unchanged,
so a token such as C7x is returned with the stray character kept. -/
theorem canonicalizer_keeps_stray_chars :
    (∀ chord : GoStr, applySuffixStep chord = chord)
  ∧ normalizeChord "C7x".data = "C7x".data :=
  ⟨applySuffixStep_eq_self, by decide⟩

/-- C3 (code bug): the recognizer's suffix alternation lacks m11 and
m13, and the trailing word boundary forbids any shorter match inside
Cm11, so a line consisting of exactly Cm11 (or Cm13) produces zero
matches and nothing is counted — though the normalizer's own suffix
list does include m11 and m13. -/
theorem recognizer_rejects_m11_m13 :
    findAllChords "Cm11".data = []
  ∧ findAllChords "Cm13".data = []
  ∧ lineTokens "Cm11".data = []
  ∧ countLines ["Cm11".data] = []
  ∧ "m11".data ∈ goSuffixes ∧ "m13".data ∈ goSuffixes := by
  refine ⟨by decide, by decide, by decide, by decide, by decide, by decide⟩

/-- C7: the alternate minor-quality spelling CM collapses to the same
canonical key as Cm, because ReplaceAll turns every uppercase M of the
token into m after the leading character has been uppercased. -/
theorem normalizeChord_cm_case_insensitive :
    normalizeChord "CM".data = normalizeChord "Cm".data
  ∧ normalizeChord "CM".data = "Cm".data := by
  constructor
  · decide
  · decide

/-! Aggregator lemmas. -/

theorem lookupD_bump_self (m : Table) (k : GoStr) :
    lookupD (bump m k) k = lookupD m k + 1 := by
  induction m with
  | nil => simp [bump, lookupD]
  | cons e rest ih =>
    obtain ⟨k', v⟩ := e
    by_cases h : k' = k
    · subst h
      simp [bump, lookupD]
    · rw [bump, if_neg h, lookupD, if_neg h, lookupD, if_neg h, ih]

theorem lookupD_bump_ne (m : Table) {k x : GoStr} (h : k ≠ x) :
    lookupD (bump m k) x = lookupD m x := by
  induction m with
  | nil =>
    simp only [bump, lookupD]
    rw [if_neg h]
  | cons e rest ih =>
    obtain ⟨k', v⟩ := e
    by_cases hk : k' = k
    · subst hk
      rw [bump, if_pos rfl, lookupD, lookupD]
      by_cases hx : k' = x
      · exact absurd (hx ▸ h) (fun hc => hc rfl)
      · rw [if_neg hx, if_neg hx]
    · rw [bump, if_neg hk, lookupD, lookupD, ih]

theorem lookupD_eq_zero_of_absent {m : Table} {k : GoStr}
    (h : k ∉ m.map Prod.fst) : lookupD m k = 0 := by
  induction m with
  | nil => rfl
  | cons e rest ih =>
    obtain ⟨k', v⟩ := e
    rw [List.map_cons, List.mem_cons] at h
    push_neg at h
    rw [lookupD, if_neg (fun he => h.1 he.symm)]
    exact ih h.2

theorem lookupD_record_le (m : Table) (k x : GoStr) :
    lookupD m x ≤ lookupD (record m k) x := by
  unfold record
  split
  · exact le_refl _
  · by_cases h : k = x
    · subst h
      rw [lookupD_bump_self]
      omega
    · rw [lookupD_bump_ne m h]

theorem lookupD_processLine_le (m : Table) (line : GoStr) (x : GoStr) :
    lookupD m x ≤ lookupD (processLine m line) x := by
  unfold processLine
  generalize lineTokens line = toks
  induction toks generalizing m with
  | nil => exact le_refl _
  | cons tok rest ih =>
    exact le_trans (lookupD_record_le m (normalizeChord tok) x) (ih _)

/-- C9: the record operation is a no-op on the empty (discard) key and
otherwise increments the key's count by exactly one, initializing an
absent key at one; counts never turn negative and never decrease, both
under a single record and across the processing of a whole line. -/
theorem record_spec (m : Table) (k x line : GoStr) :
    record m [] = m
  ∧ (k ≠ [] → lookupD (record m k) k = lookupD m k + 1)
  ∧ (k ≠ [] → k ∉ m.map Prod.fst → lookupD (record m k) k = 1)
  ∧ (0 ≤ lookupD m x → 0 ≤ lookupD (record m k) x)
  ∧ lookupD m x ≤ lookupD (record m k) x
  ∧ lookupD m x ≤ lookupD (processLine m line) x
  ∧ (0 ≤ lookupD m x → 0 ≤ lookupD (processLine m line) x) := by
  refine ⟨by rw [record, if_pos rfl], ?_, ?_, ?_, lookupD_record_le m k x,
    lookupD_processLine_le m line x, ?_⟩
  · intro hk
    rw [record, if_neg hk, lookupD_bump_self]
  · intro hk habs
    rw [record, if_neg hk, lookupD_bump_self, lookupD_eq_zero_of_absent habs]
    omega
  · intro h
    exact le_trans h (lookupD_record_le m k x)
  · intro h
    exact le_trans h (lookupD_processLine_le m line x)

/-- C9 witness: record_spec instantiated at a concrete table, key and
line, with every hypothesis discharged. -/
theorem record_spec_witness :
    record [("C".data, (1 : Int))] [] = [("C".data, (1 : Int))]
  ∧ lookupD (record [("C".data, (1 : Int))] "G".data) "G".data =
      lookupD [("C".data, (1 : Int))] "G".data + 1
  ∧ lookupD (record [("C".data, (1 : Int))] "G".data) "G".data = 1
  ∧ 0 ≤ lookupD (record [("C".data, (1 : Int))] "G".data) "C".data
  ∧ lookupD [("C".data, (1 : Int))] "C".data ≤
      lookupD (processLine [("C".data, (1 : Int))] "Am F".data) "C".data :=
  ⟨(record_spec [("C".data, 1)] "G".data "C".data "Am F".data).1,
   (record_spec [("C".data, 1)] "G".data "C".data "Am F".data).2.1 (by decide),
   (record_spec [("C".data, 1)] "G".data "C".data "Am F".data).2.2.1
     (by decide) (by decide),
   (record_spec [("C".data, 1)] "G".data "C".data "Am F".data).2.2.2.1
     (by decide),
   (record_spec [("C".data, 1)] "G".data "C".data "Am F".data).2.2.2.2.2.1⟩

/-- C6 (code bug): the report ordering is not reproducible.  The sort
comparator looks only at counts and the entries reach it in Go's
randomized map-range order, so for a corpus with two equal-count chords
both renderings below are valid runs of the program, and they differ. -/
theorem report_order_not_reproducible :
    ValidReport (countLines ["Am F".data])
      "Chord Usage Statistics\n======================\nAm: 1\nF: 1".data
  ∧ ValidReport (countLines ["Am F".data])
      "Chord Usage Statistics\n======================\nF: 1\nAm: 1".data
  ∧ ("Chord Usage Statistics\n======================\nAm: 1\nF: 1".data : GoStr)
      ≠ "Chord Usage Statistics\n======================\nF: 1\nAm: 1".data := by
  refine ⟨⟨[("Am".data, 1), ("F".data, 1)], by decide, by decide, by decide⟩,
    ⟨[("F".data, 1), ("Am".data, 1)], by decide, by decide, by decide⟩,
    by decide⟩

/-! Reporter lemmas. -/

theorem digitChar_ne_newline (d : Nat) : digitChar d ≠ '\n' := by
  unfold digitChar
  repeat' split
  all_goals decide

theorem natStrCore_ne_newline :
    ∀ (fuel n : Nat) (acc : GoStr), (∀ c ∈ acc, c ≠ '\n') →
      ∀ c ∈ natStrCore fuel n acc, c ≠ '\n' := by
  intro fuel
  induction fuel with
  | zero => exact fun n acc hacc c hc => hacc c hc
  | succ f ih =>
    intro n acc hacc c hc
    rw [natStrCore] at hc
    split at hc
    · rcases List.mem_cons.mp hc with rfl | hm
      · exact digitChar_ne_newline n
      · exact hacc c hm
    · refine ih (n / 10) _ ?_ c hc
      intro x hx
      rcases List.mem_cons.mp hx with rfl | hm
      · exact digitChar_ne_newline _
      · exact hacc x hm

theorem intStr_ne_newline (v : Int) : ∀ c ∈ intStr v, c ≠ '\n' := by
  cases v with
  | ofNat n => exact natStrCore_ne_newline _ _ _ (by simp)
  | negSucc n =>
    intro c hc
    rcases List.mem_cons.mp hc with rfl | hm
    · decide
    · exact natStrCore_ne_newline _ _ _ (by simp) c hm

theorem fmtEntry_no_newline {e : GoStr × Int} (he : '\n' ∉ e.1) :
    '\n' ∉ fmtEntry e := by
  intro hc
  rcases List.mem_append.mp hc with hm | hm
  · exact he hm
  · rcases List.mem_cons.mp hm with h | hm'
    · exact absurd h (by decide)
    · rcases List.mem_cons.mp hm' with h | hm''
      · exact absurd h (by decide)
      · exact intStr_ne_newline e.2 '\n' hm'' rfl

/-- C8: the written report text splits at the newlines into exactly the
two fixed header lines followed by one key-colon-count line per table
entry, and under the sort postcondition the counts of those entry lines
are non-increasing. -/
theorem report_layout (es : Table)
    (hkeys : ∀ e ∈ es, '\n' ∉ e.1) (hsort : SortedDesc es) :
    splitOnChar '\n' (renderReport es) =
      "Chord Usage Statistics".data :: "======================".data ::
        es.map fmtEntry
  ∧ List.Pairwise (fun a b : Int => b ≤ a) (es.map Prod.snd) := by
  constructor
  · unfold renderReport outputLinesOf headerLines
    rw [splitOnChar_joinWith (by simp)]
    · rfl
    · intro l hl
      rcases List.mem_cons.mp hl with rfl | hl'
      · decide
      · rcases List.mem_cons.mp hl' with rfl | hl''
        · decide
        · obtain ⟨e, he, rfl⟩ := List.mem_map.mp hl''
          exact fmtEntry_no_newline (hkeys e he)
  · exact List.pairwise_map.mpr hsort

/-- C8 witness: the layout statement at a concrete sorted table. -/
theorem report_layout_witness :
    splitOnChar '\n' (renderReport [("C".data, 2), ("Am".data, 1)]) =
      "Chord Usage Statistics".data :: "======================".data ::
        [("C".data, (2 : Int)), ("Am".data, 1)].map fmtEntry
  ∧ List.Pairwise (fun a b : Int => b ≤ a)
      ([("C".data, (2 : Int)), ("Am".data, 1)].map Prod.snd) :=
  report_layout [("C".data, 2), ("Am".data, 1)] (by decide) (by decide)

/-- C5: the two post-filtering lines produce exactly the table
C:3, G:2, Am:1, F:1, and every valid rendering order (a permutation of
the entries sorted by non-increasing count) starts with C, then G, then
the two count-one entries Am and F in either order. -/
theorem frequency_correctness :
    countLines ["C G Am F".data, "C C G".data] =
      [("C".data, 3), ("G".data, 2), ("Am".data, 1), ("F".data, 1)]
  ∧ ∀ es : Table,
      es.Perm (countLines ["C G Am F".data, "C C G".data]) →
      SortedDesc es →
      ∃ rest, es = ("C".data, 3) :: ("G".data, 2) :: rest ∧
        rest.Perm [("Am".data, 1), ("F".data, 1)] := by
  have hL : countLines ["C G Am F".data, "C C G".data] =
      [("C".data, 3), ("G".data, 2), ("Am".data, 1), ("F".data, 1)] := by
    decide
  refine ⟨hL, ?_⟩
  intro es hperm hsorted
  rw [hL] at hperm
  have hlen : es.length = 4 := by rw [hperm.length_eq]; rfl
  rcases es with _ | ⟨a, _ | ⟨b, _ | ⟨c, _ | ⟨d, _ | ⟨e', tl⟩⟩⟩⟩⟩ <;>
    simp only [List.length_cons, List.length_nil] at hlen <;> try omega
  have hsorted' : List.Pairwise (fun p q : GoStr × Int => q.2 ≤ p.2)
      (a :: b :: c :: d :: []) := hsorted
  obtain ⟨h1, h2⟩ := List.pairwise_cons.mp hsorted'
  obtain ⟨h3, _⟩ := List.pairwise_cons.mp h2
  have haL : a ∈ [("C".data, (3 : Int)), ("G".data, 2),
      ("Am".data, 1), ("F".data, 1)] :=
    hperm.mem_iff.mp (List.mem_cons_self _ _)
  have hCes : (("C".data, (3 : Int))) ∈ a :: b :: c :: d :: [] :=
    hperm.mem_iff.mpr (by decide)
  have ha : a = ("C".data, 3) := by
    rcases List.mem_cons.mp hCes with h | h
    · exact h.symm
    · have h3a : (3 : Int) ≤ a.2 := by simpa using h1 _ h
      fin_cases haL
      · rfl
      · norm_num at h3a
      · norm_num at h3a
      · norm_num at h3a
  subst ha
  have hperm2 : List.Perm (b :: c :: d :: [])
      [("G".data, (2 : Int)), ("Am".data, 1), ("F".data, 1)] :=
    hperm.cons_inv
  have hbL : b ∈ [("G".data, (2 : Int)), ("Am".data, 1), ("F".data, 1)] :=
    hperm2.mem_iff.mp (List.mem_cons_self _ _)
  have hGes : (("G".data, (2 : Int))) ∈ b :: c :: d :: [] :=
    hperm2.mem_iff.mpr (by decide)
  have hb : b = ("G".data, 2) := by
    rcases List.mem_cons.mp hGes with h | h
    · exact h.symm
    · have h2b : (2 : Int) ≤ b.2 := by simpa using h3 _ h
      fin_cases hbL
      · rfl
      · norm_num at h2b
      · norm_num at h2b
  subst hb
  exact ⟨c :: d :: [], rfl, hperm2.cons_inv⟩

/-- C5 witness: the ordering statement applied to the concrete sorted
entry list. -/
theorem frequency_correctness_witness :
    ∃ rest,
      [("C".data, (3 : Int)), ("G".data, 2), ("Am".data, 1), ("F".data, 1)] =
        ("C".data, 3) :: ("G".data, 2) :: rest ∧
      rest.Perm [("Am".data, 1), ("F".data, 1)] :=
  frequency_correctness.2
    [("C".data, 3), ("G".data, 2), ("Am".data, 1), ("F".data, 1)]
    (by decide) (by decide)

/-! Idempotence of the canonicalizer on recognizer output. -/

/-- A well-formed candidate: each component drawn from its alternation. -/
def WFToken (t : ChordToken) : Prop :=
  t.root ∈ rootChars ∧ t.acc ∈ accOpts ∧ t.suf ∈ sufOpts ∧ t.bass ∈ bassOpts

theorem root_facts :
    ∀ r ∈ rootChars, isGoSpace r = false ∧ r ≠ 'M' ∧ r ≠ '/' ∧
      r.toUpper = r := by decide

theorem acc_facts :
    ∀ a ∈ accOpts, ∀ c ∈ accStr a,
      isGoSpace c = false ∧ c ≠ 'M' ∧ c ≠ '/' := by decide

theorem suf_facts :
    ∀ s ∈ sufOpts, ∀ c ∈ sufStr s,
      isGoSpace c = false ∧ c ≠ 'M' ∧ c ≠ '/' := by decide

theorem bass_tail_facts :
    ∀ b ∈ bassOpts, ∀ c ∈ bassStr b,
      isGoSpace c = false ∧ (c = '/' ∨ c ≠ 'M') := by decide

theorem bass_mem_elim {r' : Char} {a' : Option Char}
    (h : some (r', a') ∈ bassOpts) : r' ∈ rootChars ∧ a' ∈ accOpts := by
  unfold bassOpts at h
  rcases List.mem_append.mp h with h1 | h1
  · rw [List.mem_flatMap] at h1
    obtain ⟨r, hr, h2⟩ := h1
    rw [List.mem_map] at h2
    obtain ⟨a, ha, he⟩ := h2
    rw [Option.some_inj, Prod.mk.injEq] at he
    obtain ⟨rfl, rfl⟩ := he
    exact ⟨hr, ha⟩
  · simp at h1

theorem mem_candidates_wf {r : Char} {t : ChordToken}
    (hr : r ∈ rootChars) (ht : t ∈ candidates r) : WFToken t := by
  unfold candidates at ht
  rw [List.mem_flatMap] at ht
  obtain ⟨a, ha, ht⟩ := ht
  rw [List.mem_flatMap] at ht
  obtain ⟨s, hs, ht⟩ := ht
  rw [List.mem_map] at ht
  obtain ⟨b, hb, rfl⟩ := ht
  exact ⟨hr, ha, hs, hb⟩

theorem matchAt_wf {l : GoStr} {i : Nat} {t : ChordToken}
    (h : matchAt l i = some t) : WFToken t := by
  cases hg : l.get? i with
  | none =>
    simp only [matchAt, hg] at h
    exact absurd h (by simp)
  | some r =>
    simp only [matchAt, hg] at h
    split at h
    · rename_i hcond
      rw [Bool.and_eq_true] at hcond
      exact mem_candidates_wf (of_decide_eq_true hcond.1)
        (List.mem_of_find?_eq_some h)
    · exact absurd h (by simp)

theorem scanFrom_matchAt {l : GoStr} {t : ChordToken} :
    ∀ {fuel i : Nat}, t ∈ scanFrom l i fuel →
      ∃ j, matchAt l j = some t := by
  intro fuel
  induction fuel with
  | zero => intro i h; exact absurd h (by simp [scanFrom])
  | succ f ih =>
    intro i h
    rw [scanFrom] at h
    split at h
    · split at h
      · rename_i t' hm
        rcases List.mem_cons.mp h with rfl | h'
        · exact ⟨i, hm⟩
        · exact ih h'
      · exact ih h
    · exact absurd h (by simp)

theorem wf_chars {t : ChordToken} (h : WFToken t) :
    (∀ c ∈ renderTok t, isGoSpace c = false) ∧
    (∀ c ∈ t.root :: accStr t.acc ++ sufStr t.suf, c ≠ 'M') ∧
    ('/' ∉ t.root :: accStr t.acc ++ sufStr t.suf) := by
  obtain ⟨hr, ha, hs, hb⟩ := h
  obtain ⟨hrs, hrM, hrsl, -⟩ := root_facts _ hr
  refine ⟨?_, ?_, ?_⟩
  · intro c hc
    unfold renderTok at hc
    rcases List.mem_cons.mp hc with rfl | hc'
    · exact hrs
    · rcases List.mem_append.mp hc' with hc2 | hc2
      · rcases List.mem_append.mp hc2 with hc3 | hc3
        · exact (acc_facts _ ha c hc3).1
        · exact (suf_facts _ hs c hc3).1
      · exact (bass_tail_facts _ hb c hc2).1
  · intro c hc
    rcases List.mem_cons.mp hc with rfl | hc'
    · exact hrM
    · rcases List.mem_append.mp hc' with hc2 | hc2
      · exact (acc_facts _ ha c hc2).2.1
      · exact (suf_facts _ hs c hc2).2.1
  · intro hc
    rcases List.mem_cons.mp hc with h' | hc'
    · exact hrsl h'.symm
    · rcases List.mem_append.mp hc' with hc2 | hc2
      · exact (acc_facts _ ha '/' hc2).2.2 rfl
      · exact (suf_facts _ hs '/' hc2).2.2 rfl

/-- Every text the recognizer can emit is already canonical: its root
letters are uppercase, it contains no uppercase M, no whitespace, and a
slash only before the bass part, so the canonicalizer returns it
unchanged. -/
theorem normalizeChord_renderTok {t : ChordToken} (h : WFToken t) :
    normalizeChord (renderTok t) = renderTok t := by
  obtain ⟨hspace, hM, hslash⟩ := wf_chars h
  obtain ⟨hr, ha, hs, hb⟩ := h
  have hupper : t.root.toUpper = t.root := (root_facts _ hr).2.2.2
  rcases hbs : t.bass with _ | ⟨r', a'⟩
  · have hrend : renderTok t = t.root :: accStr t.acc ++ sufStr t.suf := by
      rw [renderTok, hbs]
      simp [bassStr]
    rw [hrend] at hspace
    rw [hrend, normalizeChord_no_slash hslash (trimSpace_eq_self hspace)
      (by simp)]
    exact normalizeChordPart_fixed hupper hM
  · obtain ⟨hr', ha'⟩ := bass_mem_elim (hbs ▸ hb)
    have hrend : renderTok t =
        (t.root :: accStr t.acc ++ sufStr t.suf) ++
          '/' :: (r' :: accStr a') := by
      rw [renderTok, hbs]
      simp [bassStr]
    rw [hrend] at hspace
    have htail_noslash : '/' ∉ r' :: accStr a' := by
      intro hc
      rcases List.mem_cons.mp hc with h' | hc'
      · exact (root_facts _ hr').2.2.1 h'.symm
      · exact (acc_facts _ ha' '/' hc').2.2 rfl
    have htailM : ∀ x ∈ r' :: accStr a', x ≠ 'M' := by
      intro x hx
      rcases List.mem_cons.mp hx with rfl | hx'
      · exact (root_facts _ hr').2.1
      · exact (acc_facts _ ha' x hx').2.1
    rw [hrend, normalizeChord_slash_eq hslash (trimSpace_eq_self hspace),
      splitOnChar_no_sep htail_noslash]
    simp only [List.getD, List.get?_cons_zero, Option.getD_some]
    rw [if_neg (by simp)]
    have h1 : normalizeChordPart (t.root :: accStr t.acc ++ sufStr t.suf) =
        t.root :: accStr t.acc ++ sufStr t.suf :=
      normalizeChordPart_fixed hupper hM
    have h2 := normalizeChordPart_fixed ((root_facts _ hr').2.2.2) htailM
    simp only [h1, h2]

/-- C4: the canonicalizer is idempotent on every token the recognizer
produces: normalizing a normalized recognizer token is a no-op. -/
theorem canonicalizer_idempotent :
    ∀ (line x : GoStr), x ∈ findAllChords line →
      normalizeChord (normalizeChord x) = normalizeChord x := by
  intro line x hx
  unfold findAllChords at hx
  rw [List.mem_map] at hx
  obtain ⟨t, ht, rfl⟩ := hx
  obtain ⟨j, hj⟩ := scanFrom_matchAt ht
  have hfix := normalizeChord_renderTok (matchAt_wf hj)
  rw [hfix]
  exact hfix

/-- C4 witness: idempotence at the token Cm7 extracted from the line
Cm7. -/
theorem canonicalizer_idempotent_witness :
    normalizeChord (normalizeChord "Cm7".data) = normalizeChord "Cm7".data :=
  canonicalizer_idempotent "Cm7".data "Cm7".data (by decide)
